import Mathlib

/-!
Verification development for the M3U8 downloader (src/m3u8_downloader.py).

The source is a single Python class, M3U8Downloader.  The definitions below
are a shallow embedding of its data and control flow:

* Python strings are modelled as lists of Unicode code points (List Nat);
  Python compares strings lexicographically by code point, which strLt
  implements.
* download_segment (source lines 205-220) writes each segment to a file
  named os.path.join(self.temp_dir, "segment_" + format(index, "05d") + ".ts")
  and appends that path to self.segment_files in the completion order of the
  worker threads; segmentFileName embeds that file name.
* _convert_to_mp4 (lines 239-279) feeds sorted(self.segment_files) to the
  ffmpeg concat input; pySorted embeds the Python builtin sorted (ascending,
  stable, by code-point order) via List.mergeSort, which is stable.
* the remaining definitions embed _select_quality, _download_segments,
  the variant URL resolution of download_m3u8, and the cleanup flow.
-/

/-- Code points of a string literal.  Python compares strings by code
point, so every Python string in the embedding is a List Nat. -/
def codes (s : String) : List Nat := s.data.map Char.toNat

/-- Python string less-than: lexicographic comparison of the code-point
lists, a proper initial segment being smaller. -/
def strLt : List Nat → List Nat → Bool
  | [], [] => false
  | [], _ :: _ => true
  | _ :: _, [] => false
  | a :: as, b :: bs => if a < b then true else if b < a then false else strLt as bs

/-- Python string less-or-equal, as the Prop used for sortedness:
a is at most b iff b is not less than a. -/
def pyLe (a b : List Nat) : Prop := strLt b a = false

/-- Boolean form of pyLe, the comparator given to List.mergeSort. -/
def mergeLe (a b : List Nat) : Bool := !strLt b a

/-- Code point of the decimal digit d (for d < 10): the digit 0 is 48. -/
def digitCode (d : Nat) : Nat := 48 + d

/-- Fuel-driven decimal digits of i, least significant first.  The fuel
only makes the recursion structural; digitsRev supplies enough of it. -/
def digitsRevAux : Nat → Nat → List Nat
  | 0, _ => []
  | fuel + 1, i => if i < 10 then [digitCode i] else digitCode (i % 10) :: digitsRevAux fuel (i / 10)

/-- Decimal digits of i, least significant first. -/
def digitsRev (i : Nat) : List Nat := digitsRevAux (i + 1) i

/-- Decimal digits of i, most significant first: the code points of the
Python decimal rendering str(i) of a natural number. -/
def decimalDigits (i : Nat) : List Nat := (digitsRev i).reverse

/-- The Python format specification 05d applied to i: the decimal
representation of i, left-padded with the digit 0 to a minimum width of 5.
An index of 6 or more digits is not truncated: its padding is empty. -/
def pyFormat05d (i : Nat) : List Nat :=
  List.replicate (5 - (decimalDigits i).length) (digitCode 0) ++ decimalDigits i

/-- The zero-padded decimal digits of i modulo 10 ^ w, exactly w digits,
least significant first.  Proof-side auxiliary, structural in the width. -/
def padDigitsRev : Nat → Nat → List Nat
  | 0, _ => []
  | w + 1, i => digitCode (i % 10) :: padDigitsRev w (i / 10)

/-- The zero-padded decimal digits of i modulo 10 ^ w, exactly w digits,
most significant first. -/
def padDigits (w i : Nat) : List Nat := (padDigitsRev w i).reverse

/-- The full path os.path.join(self.temp_dir, "segment_{index:05d}.ts")
written by download_segment (source line 211), with dir the code points of
self.temp_dir; 47 is the path separator added by os.path.join. -/
def segmentFileName (dir : List Nat) (i : Nat) : List Nat :=
  dir ++ [47] ++ codes "segment_" ++ pyFormat05d i ++ codes ".ts"

/-- The Python builtin sorted on a list of strings: a stable ascending sort
by the code-point order.  List.mergeSort is stable; moreover all file names
sorted by the source are distinct, so stability does not matter here. -/
def pySorted (l : List (List Nat)) : List (List Nat) :=
  l.mergeSort mergeLe

/-- The ordered list of segment files fed by _convert_to_mp4 (line 255) to
the ffmpeg concat input: sorted(self.segment_files), where
self.segment_files holds the per-index file names in the completion order
of the worker threads.  A file named for index i holds exactly the payload
of segment i (download_segment writes response.content of segment i there),
so this list determines the assembled byte stream. -/
def concatOrder (dir : List Nat) (completion : List Nat) : List (List Nat) :=
  pySorted (completion.map (segmentFileName dir))

/-!  Segment fetcher pool (_download_segments, lines 191-237). -/

/-- One download_segment call (lines 205-220) for a segment whose network
fetch succeeds (fetchOk) or raises (not fetchOk): the pair of the boolean
returned to the future and the number of pbar.update calls made.  The
update on line 216 sits in the try block after the write, so a failed
fetch performs no update. -/
def downloadSegmentStep (fetchOk : Bool) : Bool × Nat :=
  if fetchOk then (true, 1) else (false, 0)

/-- The per-future results of the pool in the order concurrent completion
yields them: lines 222-231 submit one future per index i of
enumerate(playlist.segments), and the future for index i returns the
boolean outcome i of its download_segment call. -/
def poolResults (outcome : Nat → Bool) (completion : List Nat) : List (Nat × Bool) :=
  completion.map (fun i => (i, outcome i))

/-- success_count of lines 230-231: how many futures returned True. -/
def successCount (outcomes : List Bool) : Nat :=
  (outcomes.filter (fun b => b)).length

/-- The count printed by line 234: len(playlist.segments) - success_count. -/
def reportedFailedCount (outcomes : List Bool) : Nat :=
  outcomes.length - successCount outcomes

/-- The value of the tqdm progress counter once the pool has returned: the
total of the per-fetch update counts of downloadSegmentStep. -/
def progressTotal (outcomes : List Bool) : Nat :=
  (outcomes.map (fun b => (downloadSegmentStep b).2)).sum

/-- The boolean returned by _download_segments: False on an empty segment
list (line 193), False when success_count differs from the segment count
(lines 233-235), True otherwise. -/
def downloadSegmentsOk (outcomes : List Bool) : Bool :=
  if outcomes.isEmpty then false else successCount outcomes == outcomes.length

/-- What the specification says the Incomplete assembly error should carry:
the indices whose fetch failed.  (Spec 4.4: any index missing or carrying a
failure yields AssemblyError(Incomplete, missing_indices).)  The source
never computes this list; it is defined here only to compare the spec
against the count actually reported. -/
def specMissingIndices (outcomes : List Bool) : List Nat :=
  (outcomes.enum.filter (fun p => !p.2)).map Prod.fst

/-- Lines 87-93 of download_m3u8, after segment download: the conversion
step runs only when _download_segments returned True.  The result pair is
(whether _convert_to_mp4 was invoked, the overall boolean outcome). -/
def pipelineAfterFetch (outcomes : List Bool) (convertOk : Bool) : Bool × Bool :=
  if downloadSegmentsOk outcomes then (true, convertOk) else (false, false)

/-!  Remux orchestration (_convert_to_mp4 and _convert_alternative,
lines 239-306). -/

/-- The two ffmpeg invocation modes: stream copy (vcodec and acodec copy,
line 265) and full transcode (libx264 and aac, lines 295-296). -/
inductive ConvMode where
  | copy : ConvMode
  | transcode : ConvMode
deriving DecidableEq, Repr

/-- _convert_to_mp4: with a nonempty segment list it runs the copy-mode
ffmpeg invocation; on any exception it calls _convert_alternative, which
runs the transcode-mode invocation once and returns its outcome.  copyOk
and transcodeOk state whether each invocation would succeed.  The result
is the ordered list of attempts made and the returned boolean. -/
def convertToMp4 (segmentFiles : List (List Nat)) (copyOk transcodeOk : Bool) :
    List ConvMode × Bool :=
  if segmentFiles.isEmpty then ([], false)
  else if copyOk then ([ConvMode.copy], true)
  else ([ConvMode.copy, ConvMode.transcode], transcodeOk)

/-!  Quality selection (_select_quality, lines 133-189). -/

/-- One entry of master_playlist.playlists: its uri, its optional
stream_info.resolution and its stream_info.bandwidth. -/
structure VariantRef where
  uri : List Nat
  resolution : Option (Nat × Nat)
  bandwidth : Nat
deriving DecidableEq, Repr

/-- One entry of the qualities list built on lines 140-151.  The sort key
on line 154 is int(resolution.split(x-separator)[1]), which for the string
built from (width, height) on line 148 is exactly height. -/
structure StreamQuality where
  url : List Nat
  width : Nat
  height : Nat
  bandwidth : Nat
deriving DecidableEq, Repr

/-- Lines 140-151: variants lacking resolution information are skipped. -/
def extractQualities (variants : List VariantRef) : List StreamQuality :=
  variants.filterMap (fun v =>
    match v.resolution with
    | none => none
    | some (w, h) => some { url := v.uri, width := w, height := h, bandwidth := v.bandwidth })

/-- Insertion step of the stable descending sort: the new element q goes
after every already-placed element of height at least q.height. -/
def insertDesc (q : StreamQuality) : List StreamQuality → List StreamQuality
  | [] => [q]
  | r :: rs => if r.height < q.height then q :: r :: rs else r :: insertDesc q rs

/-- Line 154: qualities.sort(key=height, reverse=True).  The Python list
sort is stable, and a stable descending sort is unique, so this insertion
sort (which keeps elements of equal height in arrival order) computes it. -/
def sortByHeightDesc (qs : List StreamQuality) : List StreamQuality :=
  qs.foldl (fun acc q => insertDesc q acc) []

/-- Lines 161-162 for the preference best: the url of qualities[0] after
the descending sort.  An empty qualities list makes qualities[0] raise
IndexError, aborting the pipeline: modelled as none. -/
def selectQualityBest (variants : List VariantRef) : Option (List Nat) :=
  match sortByHeightDesc (extractQualities variants) with
  | [] => none
  | q :: _ => some q.url

/-- Proof-side reference: the first element of maximal height reachable
from seed m through the list. -/
def firstMaxAux (m : StreamQuality) : List StreamQuality → StreamQuality
  | [] => m
  | q :: qs => if m.height < q.height then firstMaxAux q qs else firstMaxAux m qs

/-- Combination step used to characterise the head of the stable sort. -/
def headMerge (o : Option StreamQuality) (q : StreamQuality) : StreamQuality :=
  match o with
  | none => q
  | some r => if r.height < q.height then q else r

/-!  Variant URL resolution (download_m3u8, lines 76-88). -/

/-- The component view of a URL as returned by urlparse: scheme, netloc,
path, query and fragment, each a code-point list. -/
structure UrlParts where
  scheme : List Nat
  netloc : List Nat
  path : List Nat
  query : List Nat
  fragment : List Nat
deriving DecidableEq, Repr

/-- Line 81: cleaned_master_url = scheme + "://" + netloc + path of the
parsed url argument.  The query and fragment components are not consulted. -/
def cleanedMasterUrl (u : UrlParts) : List Nat :=
  u.scheme ++ codes "://" ++ u.netloc ++ u.path

/-- Whether an address carries the scheme separator "://" (code points
58, 47, 47), i.e. is absolute for the purpose of urljoin. -/
def hasSchemeSep : List Nat → Bool
  | 58 :: 47 :: 47 :: _ => true
  | _ :: rest => hasSchemeSep rest
  | [] => false

/-- The path up to and including its last slash (code point 47). -/
def dirname (p : List Nat) : List Nat :=
  (p.reverse.dropWhile (fun c => !(c == 47))).reverse

/-- The urljoin of line 82, with the base already split into components and
already stripped of query and fragment: an absolute reference replaces the
base, a root-relative one keeps scheme and netloc, any other is resolved
against the directory of the base path. -/
def urljoinCleaned (base : UrlParts) (rel : List Nat) : List Nat :=
  if hasSchemeSep rel then rel
  else if rel.head? = some 47 then base.scheme ++ codes "://" ++ base.netloc ++ rel
  else base.scheme ++ codes "://" ++ base.netloc ++ dirname base.path ++ rel

/-- Lines 79-83: the URL from which the selected variant playlist is
re-fetched.  u is urlparse(url) of the url argument of download_m3u8.
masterFinalUrl is the final URL of the master request (response.url after
redirects): the network layer makes it available inside _parse_playlist,
but the code discards it, so the resolution never reads it; it is threaded
here explicitly so that independence from it is statable. -/
def variantRefetchUrl (u : UrlParts) (masterFinalUrl : List Nat) (selected : List Nat) : List Nat :=
  urljoinCleaned u selected

/-- A parsed playlist document: the code treats it as a master playlist
when playlist.playlists is nonempty (line 71), and as a media playlist
(its segment uris) otherwise. -/
structure PlaylistDoc where
  variants : List VariantRef
  segments : List (List Nat)
deriving Repr

/-- Lines 62-88 of download_m3u8, reduced to its data flow: which
(base_url, segments) pair reaches _download_segments.  net maps a URL to
the playlist obtained by fetching and parsing it (none is a fetch or parse
failure); rawUrl is the url argument as a string, u its urlparse view;
selected abstracts the return of _select_quality (none aborts).  On the
master branch the media playlist is re-fetched from the resolved variant
URL, yet line 88 passes the original url as base_url. -/
def segmentsPlan (net : List Nat → Option PlaylistDoc) (rawUrl : List Nat) (u : UrlParts)
    (doc : PlaylistDoc) (selected : Option (List Nat)) :
    Option (List Nat × List (List Nat)) :=
  if doc.variants.isEmpty then some (rawUrl, doc.segments)
  else
    match selected with
    | none => none
    | some sel =>
      match net (variantRefetchUrl u (codes "") sel) with
      | none => none
      | some mediaDoc => some (rawUrl, mediaDoc.segments)

/-!  Cleanup flow (download_m3u8 lines 54-102 together with _cleanup,
lines 329-335). -/

/-- The working-directory events of one run: tempfile.mkdtemp on line 198
and shutil.rmtree on line 333. -/
inductive PipeEv where
  | createWorkdir : PipeEv
  | removeWorkdir : PipeEv
deriving DecidableEq, Repr

/-- The inputs that select one control path through download_m3u8:
raisesEarly - an exception escapes before segment download starts,
parseOk / isMaster / selectOk / variantParseOk - the manifest stages,
hasSegments - playlist.segments nonempty (checked before mkdtemp),
fetchOk - success_count equalled the segment count,
raisesLate - an exception escapes during conversion,
convertOk - the boolean returned by _convert_to_mp4. -/
structure RunInput where
  raisesEarly : Bool
  parseOk : Bool
  isMaster : Bool
  selectOk : Bool
  variantParseOk : Bool
  hasSegments : Bool
  fetchOk : Bool
  raisesLate : Bool
  convertOk : Bool

/-- The try body of download_m3u8 (lines 54-96): the workdir events it
performs and its outcome.  Every early return yields False; an escaping
exception is caught on line 98 and also yields False.  The temporary
directory is created exactly when _download_segments passes its emptiness
check and calls mkdtemp (line 198). -/
def downloadBody (inp : RunInput) : List PipeEv × Bool :=
  if inp.raisesEarly then ([], false)
  else if !inp.parseOk then ([], false)
  else if inp.isMaster && !inp.selectOk then ([], false)
  else if inp.isMaster && !inp.variantParseOk then ([], false)
  else if !inp.hasSegments then ([], false)
  else if !inp.fetchOk then ([PipeEv.createWorkdir], false)
  else if inp.raisesLate then ([PipeEv.createWorkdir], false)
  else ([PipeEv.createWorkdir], inp.convertOk)

/-- download_m3u8 with its finally clause (lines 101-102): after the body,
on every path, _cleanup removes the directory iff self.temp_dir was set
and exists, i.e. iff it was created during this run. -/
def downloadM3u8Run (inp : RunInput) : List PipeEv × Bool :=
  let body := downloadBody inp
  (body.1 ++ (if PipeEv.createWorkdir ∈ body.1 then [PipeEv.removeWorkdir] else []), body.2)

/-!  Order lemmas for the Python string comparison. -/

theorem strLt_irrefl (a : List Nat) : strLt a a = false := by
  induction a with
  | nil => rfl
  | cons x xs ih => simp [strLt, ih]

theorem strLt_asymm : ∀ (a b : List Nat), strLt a b = true → strLt b a = false := by
  intro a
  induction a with
  | nil =>
    intro b h
    cases b with
    | nil => simp [strLt] at h
    | cons y ys => rfl
  | cons x xs ih =>
    intro b h
    cases b with
    | nil => simp [strLt] at h
    | cons y ys =>
      simp only [strLt] at h ⊢
      rcases Nat.lt_trichotomy x y with hxy | hxy | hxy
      · simp [hxy, Nat.lt_asymm hxy]
      · subst hxy
        simp only [Nat.lt_irrefl, if_false] at h ⊢
        exact ih ys h
      · simp [hxy, Nat.lt_asymm hxy] at h

theorem strLt_trans :
    ∀ (a b c : List Nat), strLt a b = true → strLt b c = true → strLt a c = true := by
  intro a
  induction a with
  | nil =>
    intro b c hab hbc
    cases c with
    | nil =>
      cases b with
      | nil => exact hab
      | cons y ys => simp [strLt] at hbc
    | cons z zs => rfl
  | cons x xs ih =>
    intro b c hab hbc
    cases b with
    | nil => simp [strLt] at hab
    | cons y ys =>
      cases c with
      | nil => simp [strLt] at hbc
      | cons z zs =>
        simp only [strLt] at hab hbc ⊢
        rcases Nat.lt_trichotomy x y with hxy | hxy | hxy
        · rcases Nat.lt_trichotomy y z with hyz | hyz | hyz
          · simp [Nat.lt_trans hxy hyz]
          · subst hyz; simp [hxy]
          · simp [Nat.lt_asymm hyz, hyz] at hbc
        · subst hxy
          rcases Nat.lt_trichotomy x z with hxz | hxz | hxz
          · simp [hxz]
          · subst hxz
            simp only [Nat.lt_irrefl, if_false] at hab hbc ⊢
            exact ih ys zs hab hbc
          · simp only [Nat.lt_irrefl, if_false] at hab
            simp [Nat.lt_asymm hxz, hxz] at hbc
        · simp [Nat.lt_asymm hxy, hxy] at hab

theorem strLt_connex : ∀ (a b : List Nat), strLt a b = false → strLt b a = false → a = b := by
  intro a
  induction a with
  | nil =>
    intro b hab _
    cases b with
    | nil => rfl
    | cons y ys => simp [strLt] at hab
  | cons x xs ih =>
    intro b hab hba
    cases b with
    | nil => simp [strLt] at hba
    | cons y ys =>
      simp only [strLt] at hab hba
      rcases Nat.lt_trichotomy x y with hxy | hxy | hxy
      · simp [hxy] at hab
      · subst hxy
        simp only [Nat.lt_irrefl, if_false] at hab hba
        rw [ih ys hab hba]
      · simp [hxy] at hba

theorem mergeLe_trans :
    ∀ (a b c : List Nat), mergeLe a b = true → mergeLe b c = true → mergeLe a c = true := by
  intro a b c hab hbc
  simp only [mergeLe, Bool.not_eq_true'] at hab hbc ⊢
  rcases hx : strLt a b with _ | _
  · rcases (strLt_connex a b hx hab) with rfl
    exact hbc
  · rcases hy : strLt b c with _ | _
    · rcases (strLt_connex b c hy hbc) with rfl
      exact hab
    · exact strLt_asymm a c (strLt_trans a b c hx hy)

theorem mergeLe_total : ∀ (a b : List Nat), (mergeLe a b || mergeLe b a) = true := by
  intro a b
  simp only [mergeLe, Bool.not_eq_true']
  rcases hx : strLt b a with _ | _
  · simp
  · simp [strLt_asymm b a hx]

instance : IsAntisymm (List Nat) pyLe :=
  ⟨fun a b h1 h2 => strLt_connex a b h2 h1⟩

theorem strLt_append_same : ∀ (p a b : List Nat), strLt (p ++ a) (p ++ b) = strLt a b := by
  intro p
  induction p with
  | nil => intro a b; rfl
  | cons x xs ih => intro a b; simp [strLt, Nat.lt_irrefl, ih]

theorem strLt_append_of_length_eq :
    ∀ (a b s t : List Nat), a.length = b.length → strLt a b = true →
      strLt (a ++ s) (b ++ t) = true := by
  intro a
  induction a with
  | nil =>
    intro b s t hlen h
    cases b with
    | nil => simp [strLt] at h
    | cons y ys => simp at hlen
  | cons x xs ih =>
    intro b s t hlen h
    cases b with
    | nil => simp at hlen
    | cons y ys =>
      simp only [strLt] at h
      simp only [List.cons_append, strLt]
      rcases Nat.lt_trichotomy x y with hxy | hxy | hxy
      · simp [hxy]
      · subst hxy
        simp only [Nat.lt_irrefl, if_false] at h ⊢
        exact ih ys s t (by simpa using hlen) h
      · simp [hxy, Nat.lt_asymm hxy] at h

/-!  Zero-padded decimal digits: basic facts. -/

theorem padDigitsRev_length : ∀ (w i : Nat), (padDigitsRev w i).length = w := by
  intro w
  induction w with
  | zero => intro i; rfl
  | succ w ih => intro i; simp [padDigitsRev, ih]

theorem padDigits_length (w i : Nat) : (padDigits w i).length = w := by
  simp [padDigits, padDigitsRev_length]

theorem padDigitsRev_zero : ∀ (w : Nat), padDigitsRev w 0 = List.replicate w (digitCode 0) := by
  intro w
  induction w with
  | zero => rfl
  | succ w ih => simp [padDigitsRev, List.replicate_succ, ih]

theorem digitsRevAux_congr :
    ∀ (i f g : Nat), i < f → i < g → digitsRevAux f i = digitsRevAux g i := by
  intro i
  induction i using Nat.strong_induction_on with
  | _ i ih =>
    intro f g hf hg
    cases f with
    | zero => omega
    | succ f =>
      cases g with
      | zero => omega
      | succ g =>
        by_cases h10 : i < 10
        · simp [digitsRevAux, h10]
        · have hdiv : i / 10 < i := Nat.div_lt_self (by omega) (by omega)
          simp only [digitsRevAux, h10, if_false]
          rw [ih (i / 10) hdiv f g (by omega) (by omega)]

theorem digitsRevAux_succ (fuel i : Nat) :
    digitsRevAux (fuel + 1) i
      = if i < 10 then [digitCode i] else digitCode (i % 10) :: digitsRevAux fuel (i / 10) := rfl

theorem digitsRev_unfold (i : Nat) :
    digitsRev i = if i < 10 then [digitCode i] else digitCode (i % 10) :: digitsRev (i / 10) := by
  have e : digitsRev i
      = if i < 10 then [digitCode i] else digitCode (i % 10) :: digitsRevAux i (i / 10) :=
    digitsRevAux_succ i i
  rw [e]
  by_cases h10 : i < 10
  · simp [h10]
  · simp only [h10, if_false]
    have hdiv : i / 10 < i := Nat.div_lt_self (by omega) (by omega)
    exact congrArg _ (digitsRevAux_congr (i / 10) i (i / 10 + 1) (by omega) (by omega))

theorem padDigitsRev_eq_digitsRev :
    ∀ (w i : Nat), i < 10 ^ (w + 1) →
      padDigitsRev (w + 1) i
        = digitsRev i ++ List.replicate ((w + 1) - (digitsRev i).length) (digitCode 0) := by
  intro w
  induction w with
  | zero =>
    intro i hi
    have h10 : i < 10 := by simpa using hi
    rw [digitsRev_unfold i]
    simp [padDigitsRev, h10, Nat.mod_eq_of_lt h10, Nat.div_eq_of_lt h10]
  | succ w ih =>
    intro i hi
    by_cases h10 : i < 10
    · have hz : i / 10 = 0 := Nat.div_eq_of_lt h10
      rw [digitsRev_unfold i]
      simp [padDigitsRev, h10, Nat.mod_eq_of_lt h10, hz, padDigitsRev_zero,
        List.replicate_succ]
    · have hdiv : i / 10 < 10 ^ (w + 1) := by
        apply Nat.div_lt_of_lt_mul
        calc i < 10 ^ (w + 1 + 1) := hi
          _ = 10 ^ (w + 1) * 10 := pow_succ 10 (w + 1)
          _ = 10 * 10 ^ (w + 1) := Nat.mul_comm _ _
      rw [digitsRev_unfold i]
      simp only [h10, if_false]
      have step : padDigitsRev (w + 1 + 1) i
          = digitCode (i % 10) :: padDigitsRev (w + 1) (i / 10) := rfl
      rw [step, ih (i / 10) hdiv]
      simp only [List.cons_append, List.length_cons]
      have harith : w + 1 + 1 - ((digitsRev (i / 10)).length + 1)
          = w + 1 - (digitsRev (i / 10)).length := by omega
      rw [harith]

theorem padDigitsRev_snoc :
    ∀ (w i : Nat), padDigitsRev (w + 1) i = padDigitsRev w i ++ [digitCode (i / 10 ^ w % 10)] := by
  intro w
  induction w with
  | zero => intro i; simp [padDigitsRev]
  | succ w ih =>
    intro i
    have hdd : i / 10 / 10 ^ w = i / 10 ^ (w + 1) := by
      rw [Nat.div_div_eq_div_mul, pow_succ, Nat.mul_comm (10 ^ w) 10]
    calc padDigitsRev (w + 2) i
        = digitCode (i % 10) :: padDigitsRev (w + 1) (i / 10) := rfl
      _ = digitCode (i % 10) :: (padDigitsRev w (i / 10) ++ [digitCode (i / 10 / 10 ^ w % 10)]) := by
          rw [ih]
      _ = padDigitsRev (w + 1) i ++ [digitCode (i / 10 ^ (w + 1) % 10)] := by
          simp [padDigitsRev, hdd]

theorem padDigits_cons (w i : Nat) :
    padDigits (w + 1) i = digitCode (i / 10 ^ w % 10) :: padDigits w i := by
  simp [padDigits, padDigitsRev_snoc]

theorem padDigitsRev_mod : ∀ (w i : Nat), padDigitsRev w i = padDigitsRev w (i % 10 ^ w) := by
  intro w
  induction w with
  | zero => intro i; rfl
  | succ w ih =>
    intro i
    have h1 : i % 10 ^ (w + 1) % 10 = i % 10 := by
      apply Nat.mod_mod_of_dvd
      exact dvd_pow_self 10 (Nat.succ_ne_zero w)
    have h2 : i % 10 ^ (w + 1) / 10 = i / 10 % 10 ^ w := by
      rw [pow_succ, Nat.mul_comm (10 ^ w) 10]
      exact Nat.mod_mul_right_div_self i 10 (10 ^ w)
    simp only [padDigitsRev]
    rw [h1, h2, ih (i / 10)]

theorem padDigits_mod (w i : Nat) : padDigits w i = padDigits w (i % 10 ^ w) := by
  simp only [padDigits]
  rw [padDigitsRev_mod w i]

theorem padDigits_strLt :
    ∀ (w i j : Nat), i < j → j < 10 ^ w → strLt (padDigits w i) (padDigits w j) = true := by
  intro w
  induction w with
  | zero =>
    intro i j hij hj
    simp only [pow_zero] at hj
    omega
  | succ w ih =>
    intro i j hij hj
    rw [padDigits_cons, padDigits_cons]
    have hqle : i / 10 ^ w ≤ j / 10 ^ w := Nat.div_le_div_right (Nat.le_of_lt hij)
    have hqj : j / 10 ^ w < 10 := by
      apply Nat.div_lt_of_lt_mul
      calc j < 10 ^ (w + 1) := hj
        _ = 10 ^ w * 10 := pow_succ 10 w
    have hqi : i / 10 ^ w < 10 := Nat.lt_of_le_of_lt hqle hqj
    by_cases hq : i / 10 ^ w < j / 10 ^ w
    · have hlt : digitCode (i / 10 ^ w % 10) < digitCode (j / 10 ^ w % 10) := by
        rw [Nat.mod_eq_of_lt hqi, Nat.mod_eq_of_lt hqj]
        exact Nat.add_lt_add_left hq 48
      simp [strLt, hlt]
    · have hq2 : i / 10 ^ w = j / 10 ^ w := Nat.le_antisymm hqle (Nat.le_of_not_lt hq)
      rw [hq2]
      simp only [strLt, Nat.lt_irrefl, if_false]
      rw [padDigits_mod w i, padDigits_mod w j]
      apply ih
      · have e1 : 10 ^ w * (j / 10 ^ w) + i % 10 ^ w = i := by
          rw [← hq2]; exact Nat.div_add_mod i (10 ^ w)
        have e2 : 10 ^ w * (j / 10 ^ w) + j % 10 ^ w = j := Nat.div_add_mod j (10 ^ w)
        have hij2 : 10 ^ w * (j / 10 ^ w) + i % 10 ^ w
            < 10 ^ w * (j / 10 ^ w) + j % 10 ^ w := by
          rw [e1, e2]; exact hij
        exact Nat.lt_of_add_lt_add_left hij2
      · exact Nat.mod_lt j (pow_pos (by omega) w)

theorem pyFormat05d_eq_padDigits (i : Nat) (hi : i < 100000) : pyFormat05d i = padDigits 5 i := by
  have h5 : i < 10 ^ (4 + 1) := by norm_num; omega
  have hb := padDigitsRev_eq_digitsRev 4 i h5
  simp only [pyFormat05d, padDigits]
  rw [show (4 : Nat) + 1 = 5 from rfl] at hb
  rw [hb, List.reverse_append, List.reverse_replicate]
  simp [decimalDigits]

/-!  Monotonicity of the segment file names below index 100000, and the
resulting ordering facts about the concat list. -/

theorem segmentFileName_strLt (dir : List Nat) (i j : Nat) (hij : i < j) (hj : j < 100000) :
    strLt (segmentFileName dir i) (segmentFileName dir j) = true := by
  simp only [segmentFileName, List.append_assoc]
  rw [strLt_append_same, strLt_append_same, strLt_append_same]
  rw [pyFormat05d_eq_padDigits i (by omega), pyFormat05d_eq_padDigits j hj]
  apply strLt_append_of_length_eq
  · rw [padDigits_length, padDigits_length]
  · apply padDigits_strLt 5 i j hij
    norm_num
    omega

theorem pairwise_pyLe_range (dir : List Nat) (N : Nat) (hN : N ≤ 100000) :
    List.Pairwise pyLe ((List.range N).map (segmentFileName dir)) := by
  rw [List.pairwise_map]
  apply List.Pairwise.imp_of_mem ?f (List.pairwise_lt_range N)
  case f =>
    intro i j hi hj hij
    have hjN : j < N := List.mem_range.mp hj
    exact strLt_asymm _ _ (segmentFileName_strLt dir i j hij (by omega))

theorem pairwise_pyLe_mergeSort (l : List (List Nat)) :
    List.Pairwise pyLe (l.mergeSort mergeLe) := by
  have h := List.sorted_mergeSort mergeLe_trans mergeLe_total l
  apply h.imp
  intro a b hab
  simpa only [mergeLe, Bool.not_eq_true'] using hab

/-- C1 (amended): for every media playlist of at most 100000 segments and
every completion order of the concurrent fetches, the concatenation list
fed to the remux step equals the playlist order, keyed purely by each
segment file name and hence by the original 0-based index; in particular
the assembled output is byte-identical for every permutation of completion
order.  (The bound is forced: for 100001 or more segments the 05d padding
overflows and the lexicographic file sort no longer matches index order,
see assembly_order_break.) -/
theorem assembly_order_stable (dir : List Nat) (N : Nat) (hN : N ≤ 100000)
    (completion : List Nat) (hperm : completion.Perm (List.range N)) :
    concatOrder dir completion = (List.range N).map (segmentFileName dir) := by
  simp only [concatOrder, pySorted]
  exact @List.eq_of_perm_of_sorted (List Nat) pyLe _ _ _
    ((List.mergeSort_perm (completion.map (segmentFileName dir)) mergeLe).trans
      (hperm.map (segmentFileName dir)))
    (pairwise_pyLe_mergeSort _)
    (pairwise_pyLe_range dir N hN)

/-- Witness for assembly_order_stable: a 3-segment playlist whose fetches
complete in the order 2, 0, 1 is still concatenated as 0, 1, 2. -/
theorem assembly_order_stable_witness :
    3 ≤ 100000 ∧ ([2, 0, 1] : List Nat).Perm (List.range 3) ∧
      concatOrder (codes "/tmp/m3u8_download_x") [2, 0, 1]
        = (List.range 3).map (segmentFileName (codes "/tmp/m3u8_download_x")) :=
  ⟨by omega, by decide,
    assembly_order_stable (codes "/tmp/m3u8_download_x") 3 (by omega) [2, 0, 1] (by decide)⟩

/-- C1 counterexample: with 100001 segments (indices 0 .. 100000) the claim
fails even for the identity completion order.  The file for index 100000 is
named segment_100000.ts, which sorts lexicographically before
segment_99999.ts, so the concatenation order differs from playlist order. -/
theorem assembly_order_break :
    concatOrder (codes "/tmp/m3u8_download_x") (List.range 100001)
      ≠ (List.range 100001).map (segmentFileName (codes "/tmp/m3u8_download_x")) := by
  intro h
  have hs : List.Pairwise pyLe
      ((List.range 100001).map (segmentFileName (codes "/tmp/m3u8_download_x"))) := by
    rw [← h]
    simp only [concatOrder, pySorted]
    exact pairwise_pyLe_mergeSort _
  have hlen : ((List.range 100001).map
      (segmentFileName (codes "/tmp/m3u8_download_x"))).length = 100001 := by
    simp
  have hp := List.pairwise_iff_get.mp hs ⟨99999, by rw [hlen]; omega⟩
    ⟨100000, by rw [hlen]; omega⟩ (Fin.mk_lt_mk.mpr (by omega))
  simp only [List.get_eq_getElem, List.getElem_map, List.getElem_range, pyLe] at hp
  have hlt : strLt (segmentFileName (codes "/tmp/m3u8_download_x") 100000)
      (segmentFileName (codes "/tmp/m3u8_download_x") 99999) = true := by decide
  rw [hlt] at hp
  exact Bool.noConfusion hp

/-!  Counting helpers for the fetcher pool. -/

theorem countTrue_add_countFalse (l : List Bool) :
    (l.filter (fun b => b)).length + (l.filter (fun b => !b)).length = l.length := by
  induction l with
  | nil => rfl
  | cons b bs ih => cases b <;> simp [List.filter_cons] <;> omega

theorem successCount_lt_of_mem_false (l : List Bool) (h : false ∈ l) :
    successCount l < l.length := by
  have hmem : false ∈ l.filter (fun b => !b) := by
    simp [List.mem_filter, h]
  have hpos : 0 < (l.filter (fun b => !b)).length :=
    List.length_pos.mpr (List.ne_nil_of_mem hmem)
  have := countTrue_add_countFalse l
  simp only [successCount]
  omega

theorem enumFrom_filter_length :
    ∀ (l : List Bool) (n : Nat),
      ((List.enumFrom n l).filter (fun p => !p.2)).length = (l.filter (fun b => !b)).length := by
  intro l
  induction l with
  | nil => intro n; rfl
  | cons b bs ih =>
    intro n
    cases b <;> simp [List.enumFrom, List.filter_cons, ih]

theorem specMissingIndices_length (l : List Bool) :
    (specMissingIndices l).length = (l.filter (fun b => !b)).length := by
  simp only [specMissingIndices, List.length_map, List.enum]
  exact enumFrom_filter_length l 0

theorem reportedFailedCount_eq_failures (l : List Bool) :
    reportedFailedCount l = (l.filter (fun b => !b)).length := by
  have := countTrue_add_countFalse l
  simp only [reportedFailedCount, successCount] at *
  omega

/-- C2: for every media playlist and every completion order of the futures,
the pool produces exactly one per-segment result for each index in
[0, N): N results in all, no index twice, no index skipped.  The worker
count never appears: it only influences which permutation the completion
order is. -/
theorem fetch_all_complete (segs : List (List Nat)) (outcome : Nat → Bool)
    (completion : List Nat) (hperm : completion.Perm (List.range segs.length)) :
    (poolResults outcome completion).length = segs.length ∧
    ((poolResults outcome completion).map Prod.fst).Perm (List.range segs.length) ∧
    ((poolResults outcome completion).map Prod.fst).Nodup ∧
    (∀ i, i < segs.length → i ∈ (poolResults outcome completion).map Prod.fst) ∧
    (∀ i, i < segs.length → ((poolResults outcome completion).map Prod.fst).count i = 1) := by
  have hfst : (poolResults outcome completion).map Prod.fst = completion := by
    simp [poolResults, List.map_map, Function.comp_def]
  have hperm2 : ((poolResults outcome completion).map Prod.fst).Perm (List.range segs.length) := by
    rw [hfst]; exact hperm
  have hnd : ((poolResults outcome completion).map Prod.fst).Nodup :=
    hperm2.nodup_iff.mpr (List.nodup_range segs.length)
  refine ⟨?_, hperm2, hnd, ?_, ?_⟩
  · simpa [poolResults] using hperm.length_eq
  · intro i hi
    exact hperm2.mem_iff.mpr (List.mem_range.mpr hi)
  · intro i hi
    exact List.count_eq_one_of_mem hnd (hperm2.mem_iff.mpr (List.mem_range.mpr hi))

/-- Witness for fetch_all_complete: three segments completing in the order
1, 2, 0 still yield exactly one result per index. -/
theorem fetch_all_complete_witness :
    ([1, 2, 0] : List Nat).Perm (List.range 3) ∧
      (poolResults (fun _ => true) [1, 2, 0]).length = 3 ∧
      ((poolResults (fun _ => true) [1, 2, 0]).map Prod.fst).Nodup :=
  ⟨by decide,
    (fetch_all_complete [[97], [98], [99]] (fun _ => true) [1, 2, 0] (by decide)).1,
    (fetch_all_complete [[97], [98], [99]] (fun _ => true) [1, 2, 0] (by decide)).2.2.1⟩

/-- C5: when at least one of the N fetches fails, the pool still holds one
result per fetch (all N were attempted), the failure count reported on
line 234 equals the number of failed indices, _download_segments returns
False, and therefore the conversion step is never invoked: the pipeline
returns failure without remuxing a partial set. -/
theorem partial_failure_aborts (outcome : Nat → Bool) (n : Nat) (completion : List Nat)
    (convertOk : Bool) (hperm : completion.Perm (List.range n))
    (hfail : ∃ i, i < n ∧ outcome i = false) :
    (poolResults outcome completion).length = n ∧
    downloadSegmentsOk ((poolResults outcome completion).map Prod.snd) = false ∧
    reportedFailedCount ((poolResults outcome completion).map Prod.snd)
      = ((List.range n).filter (fun i => !outcome i)).length ∧
    pipelineAfterFetch ((poolResults outcome completion).map Prod.snd) convertOk
      = (false, false) := by
  obtain ⟨i0, hi0, hout0⟩ := hfail
  have hsnd : (poolResults outcome completion).map Prod.snd = completion.map outcome := by
    simp [poolResults, List.map_map, Function.comp_def]
  have hpermOut : (completion.map outcome).Perm ((List.range n).map outcome) :=
    hperm.map outcome
  have hlen : (completion.map outcome).length = n := by
    simpa using hperm.length_eq
  have hmemFalse : false ∈ completion.map outcome := by
    apply hpermOut.mem_iff.mpr
    rw [List.mem_map]
    exact ⟨i0, List.mem_range.mpr hi0, hout0⟩
  have hok : downloadSegmentsOk (completion.map outcome) = false := by
    have hlt := successCount_lt_of_mem_false (completion.map outcome) hmemFalse
    have hne : completion.map outcome ≠ [] := List.ne_nil_of_mem hmemFalse
    simp only [downloadSegmentsOk]
    rw [if_neg (by simpa [List.isEmpty_iff] using hne)]
    simp only [beq_eq_false_iff_ne, ne_eq]
    omega
  have hcount : reportedFailedCount (completion.map outcome)
      = ((List.range n).filter (fun i => !outcome i)).length := by
    rw [reportedFailedCount_eq_failures]
    have hpf : ((completion.map outcome).filter (fun b => !b)).length
        = (((List.range n).map outcome).filter (fun b => !b)).length :=
      (hpermOut.filter (fun b => !b)).length_eq
    rw [hpf, List.filter_map]
    simp [Function.comp_def]
  refine ⟨?_, ?_, ?_, ?_⟩
  · simpa [poolResults] using hperm.length_eq
  · rw [hsnd]; exact hok
  · rw [hsnd]; exact hcount
  · rw [hsnd]
    simp [pipelineAfterFetch, hok]

/-- Witness for partial_failure_aborts: five segments, the fetch of index 2
times out, the others succeed; the conversion is refused. -/
theorem partial_failure_aborts_witness :
    ([4, 2, 0, 1, 3] : List Nat).Perm (List.range 5) ∧
      ((2 : Nat) < 5 ∧ decide ((2 : Nat) ≠ 2) = false) ∧
      pipelineAfterFetch
        ((poolResults (fun i => decide (i ≠ 2)) [4, 2, 0, 1, 3]).map Prod.snd) true
        = (false, false) :=
  ⟨by decide, ⟨by omega, by decide⟩,
    (partial_failure_aborts (fun i => decide (i ≠ 2)) 5 [4, 2, 0, 1, 3] true (by decide)
      ⟨2, by omega, by decide⟩).2.2.2⟩

/-!  Progress counter (C7). -/

theorem progressTotal_eq_successCount (l : List Bool) :
    progressTotal l = successCount l := by
  induction l with
  | nil => rfl
  | cons b bs ih =>
    cases b <;>
      simp [progressTotal, successCount, downloadSegmentStep, List.filter_cons] at * <;>
      omega

theorem successCount_eq_length_iff (l : List Bool) :
    successCount l = l.length ↔ ∀ b ∈ l, b = true := by
  induction l with
  | nil => simp [successCount]
  | cons b bs ih =>
    cases b
    · have hle := List.length_filter_le (fun b => (b : Bool)) bs
      have hfc : successCount (false :: bs) = successCount bs := by
        simp [successCount, List.filter_cons]
      constructor
      · intro h
        exfalso
        rw [hfc] at h
        simp only [List.length_cons] at h
        simp only [successCount] at h hle
        omega
      · intro h
        exact absurd (h false (by simp)) (by simp)
    · simp only [successCount, List.filter_cons] at *
      simp only [List.length_cons, List.mem_cons]
      constructor
      · intro h
        intro x hx
        rcases hx with rfl | hx
        · rfl
        · exact (ih.mp (by simpa using h)) x hx
      · intro h
        have := ih.mpr (fun x hx => h x (Or.inr hx))
        simpa using this

/-- C7 counterexample: a one-segment playlist whose single fetch fails.
The pbar.update call on line 216 is skipped on the failure path, so after
the pool returns the progress counter is 0, not N = 1 as claimed. -/
theorem progress_per_completion_cex :
    progressTotal [false] ≠ ([false] : List Bool).length := by decide

/-- C7 (amended): the progress sink is updated exactly once per successful
fetch and not at all for a failed fetch, so after the pool returns the
progress count equals the number of successes; it equals the segment count
exactly when every fetch succeeded. -/
theorem progress_counts_successes (outcomes : List Bool) :
    progressTotal outcomes = successCount outcomes ∧
    (progressTotal outcomes = outcomes.length ↔ ∀ b ∈ outcomes, b = true) := by
  refine ⟨progressTotal_eq_successCount outcomes, ?_⟩
  rw [progressTotal_eq_successCount outcomes]
  exact successCount_eq_length_iff outcomes

/-- C8 counterexample: two runs with different failed-index sets (index 0
failed versus index 1 failed) are refused alike and produce the identical
reported payload, the bare count 1 printed by line 234; the error therefore
cannot list which indices are missing, contradicting the claim. -/
theorem incomplete_error_count_only_cex :
    reportedFailedCount [false, true] = reportedFailedCount [true, false] ∧
    specMissingIndices [false, true] ≠ specMissingIndices [true, false] ∧
    downloadSegmentsOk [false, true] = false ∧
    downloadSegmentsOk [true, false] = false := by decide

/-- C8 (amended): whenever at least one index is missing or failed,
_download_segments refuses assembly (returns False before any conversion)
and reports exactly the number of missing or failed indices - their count,
not their identities. -/
theorem incomplete_refused_with_count (outcomes : List Bool) (h : false ∈ outcomes) :
    downloadSegmentsOk outcomes = false ∧
    reportedFailedCount outcomes = (specMissingIndices outcomes).length := by
  constructor
  · have hlt := successCount_lt_of_mem_false outcomes h
    have hne : outcomes ≠ [] := List.ne_nil_of_mem h
    simp only [downloadSegmentsOk]
    rw [if_neg (by simpa [List.isEmpty_iff] using hne)]
    simp only [beq_eq_false_iff_ne, ne_eq]
    omega
  · rw [reportedFailedCount_eq_failures, specMissingIndices_length]

/-- Witness for incomplete_refused_with_count: three segments with the
middle fetch failed. -/
theorem incomplete_refused_with_count_witness :
    false ∈ [true, false, true] ∧
      downloadSegmentsOk [true, false, true] = false ∧
      reportedFailedCount [true, false, true]
        = (specMissingIndices [true, false, true]).length :=
  ⟨by decide, (incomplete_refused_with_count [true, false, true] (by decide)).1,
    (incomplete_refused_with_count [true, false, true] (by decide)).2⟩

/-- C6: for every nonempty assembled stream, the remux step attempts the
stream-copy invocation first; it retries in transcode mode exactly once iff
the copy attempt failed; the returned boolean is the outcome of the last
attempt made, so a copy failure followed by a transcode success surfaces as
success and only a failure of both surfaces as failure. -/
theorem convert_copy_then_transcode (files : List (List Nat)) (c t : Bool)
    (h : files ≠ []) :
    (convertToMp4 files c t).1.head? = some ConvMode.copy ∧
    (convertToMp4 files c t).1.count ConvMode.transcode = (if c then 0 else 1) ∧
    (convertToMp4 files c t).1 = (if c then [ConvMode.copy] else [ConvMode.copy, ConvMode.transcode]) ∧
    (convertToMp4 files c t).2 = (c || t) := by
  have hne : files.isEmpty = false := by simpa [List.isEmpty_iff] using h
  cases c <;> cases t <;> simp [convertToMp4, hne, List.count_cons]

/-- Witness for convert_copy_then_transcode: one segment file, copy fails,
transcode succeeds; the copy is attempted first, the transcode exactly
once, and the surfaced outcome is success. -/
theorem convert_copy_then_transcode_witness :
    ([codes "segment_00000.ts"] : List (List Nat)) ≠ [] ∧
      (convertToMp4 [codes "segment_00000.ts"] false true).1
        = [ConvMode.copy, ConvMode.transcode] ∧
      (convertToMp4 [codes "segment_00000.ts"] false true).2 = true :=
  ⟨by decide,
    by
      have h := (convert_copy_then_transcode [codes "segment_00000.ts"] false true
        (by decide)).2.2.1
      simpa using h,
    by
      have h := (convert_copy_then_transcode [codes "segment_00000.ts"] false true
        (by decide)).2.2.2
      simpa using h⟩

/-- C9: on every control path of download_m3u8 - parse failure, selection
failure, variant re-parse failure, empty playlist, fetch failure, mid-run
exception (early or during conversion), conversion failure and success -
the temporary working directory is removed exactly once if it was created
and never otherwise, before the call returns. -/
theorem cleanup_every_path (inp : RunInput) :
    (downloadM3u8Run inp).1.count PipeEv.removeWorkdir
        = (downloadM3u8Run inp).1.count PipeEv.createWorkdir ∧
    (downloadM3u8Run inp).1.count PipeEv.removeWorkdir ≤ 1 := by
  rcases inp with ⟨re, po, im, so, vp, hs, fo, rl, co⟩
  cases re <;> cases po <;> cases im <;> cases so <;> cases vp <;> cases hs <;>
    cases fo <;> cases rl <;> cases co <;> decide

/-!  Quality selection: the head of the stable descending sort. -/

theorem insertDesc_head (q : StreamQuality) (acc : List StreamQuality) :
    (insertDesc q acc).head? = some (headMerge acc.head? q) := by
  cases acc with
  | nil => rfl
  | cons r rs =>
    by_cases h : r.height < q.height <;> simp [insertDesc, headMerge, h]

theorem foldl_insertDesc_head (qs : List StreamQuality) :
    ∀ (acc : List StreamQuality),
      (qs.foldl (fun a q => insertDesc q a) acc).head?
        = qs.foldl (fun o q => some (headMerge o q)) acc.head? := by
  induction qs with
  | nil => intro acc; rfl
  | cons q qs ih =>
    intro acc
    simp only [List.foldl_cons]
    rw [ih (insertDesc q acc), insertDesc_head]

theorem foldl_headMerge_firstMax (qs : List StreamQuality) :
    ∀ (m : StreamQuality),
      qs.foldl (fun o q => some (headMerge o q)) (some m) = some (firstMaxAux m qs) := by
  induction qs with
  | nil => intro m; rfl
  | cons q qs ih =>
    intro m
    simp only [List.foldl_cons]
    have hh : headMerge (some m) q = if m.height < q.height then q else m := rfl
    rw [hh]
    by_cases h : m.height < q.height
    · rw [if_pos h, ih q]
      simp [firstMaxAux, h]
    · rw [if_neg h, ih m]
      simp [firstMaxAux, h]

theorem sortByHeightDesc_head (m : StreamQuality) (qs : List StreamQuality) :
    (sortByHeightDesc (m :: qs)).head? = some (firstMaxAux m qs) := by
  simp only [sortByHeightDesc, List.foldl_cons]
  rw [foldl_insertDesc_head]
  simp only [insertDesc, List.head?]
  exact foldl_headMerge_firstMax qs m

theorem firstMaxAux_seed_le (qs : List StreamQuality) :
    ∀ (m : StreamQuality), m.height ≤ (firstMaxAux m qs).height := by
  induction qs with
  | nil => intro m; exact Nat.le_refl _
  | cons q qs ih =>
    intro m
    simp only [firstMaxAux]
    by_cases h : m.height < q.height
    · rw [if_pos h]
      exact Nat.le_trans (Nat.le_of_lt h) (ih q)
    · rw [if_neg h]
      exact ih m

theorem firstMaxAux_is_max (qs : List StreamQuality) :
    ∀ (m r : StreamQuality), r ∈ m :: qs → r.height ≤ (firstMaxAux m qs).height := by
  induction qs with
  | nil =>
    intro m r hr
    simp at hr
    rw [hr]
    exact Nat.le_refl _
  | cons q qs ih =>
    intro m r hr
    simp only [firstMaxAux]
    rcases List.mem_cons.mp hr with rfl | hr2
    · by_cases h : r.height < q.height
      · rw [if_pos h]
        exact Nat.le_trans (Nat.le_of_lt h) (firstMaxAux_seed_le qs q)
      · rw [if_neg h]
        exact firstMaxAux_seed_le qs r
    · rcases List.mem_cons.mp hr2 with rfl | hr3
      · by_cases h : m.height < r.height
        · rw [if_pos h]
          exact firstMaxAux_seed_le qs r
        · rw [if_neg h]
          exact Nat.le_trans (Nat.le_of_not_lt h) (firstMaxAux_seed_le qs m)
      · by_cases h : m.height < q.height
        · rw [if_pos h]
          exact ih q r (List.mem_cons_of_mem q hr3)
        · rw [if_neg h]
          exact ih m r (List.mem_cons_of_mem m hr3)

theorem firstMaxAux_first (qs : List StreamQuality) :
    ∀ (m : StreamQuality),
      ∃ pre post, m :: qs = pre ++ firstMaxAux m qs :: post ∧
        ∀ r ∈ pre, r.height < (firstMaxAux m qs).height := by
  induction qs with
  | nil =>
    intro m
    exact ⟨[], [], rfl, by simp⟩
  | cons q qs ih =>
    intro m
    by_cases h : m.height < q.height
    · obtain ⟨pre1, post1, heq, hpre⟩ := ih q
      refine ⟨m :: pre1, post1, ?_, ?_⟩
      · simp only [firstMaxAux, if_pos h]
        rw [List.cons_append, ← heq]
      · intro r hr
        simp only [firstMaxAux, if_pos h]
        rcases List.mem_cons.mp hr with rfl | hr2
        · exact Nat.lt_of_lt_of_le h (firstMaxAux_seed_le qs q)
        · exact hpre r hr2
    · obtain ⟨pre1, post1, heq, hpre⟩ := ih m
      cases pre1 with
      | nil =>
        simp only [List.nil_append] at heq
        have hm : m = firstMaxAux m qs := by injection heq
        refine ⟨[], q :: qs, ?_, by simp⟩
        simp only [firstMaxAux, if_neg h, List.nil_append]
        rw [← hm]
      | cons p pre2 =>
        have heq2 : m :: qs = p :: (pre2 ++ firstMaxAux m qs :: post1) := by simpa using heq
        have hpm : m = p := by injection heq2
        have hqs : qs = pre2 ++ firstMaxAux m qs :: post1 := by injection heq2
        refine ⟨m :: q :: pre2, post1, ?_, ?_⟩
        · simp only [firstMaxAux, if_neg h]
          rw [List.cons_append, List.cons_append, ← hqs]
        · intro r hr
          simp only [firstMaxAux, if_neg h]
          have hmIn : m ∈ p :: pre2 := by rw [← hpm]; exact List.mem_cons_self _ _
          have hmlt : m.height < (firstMaxAux m qs).height := hpre m hmIn
          rcases List.mem_cons.mp hr with hrm | hr2
          · rw [hrm]; exact hmlt
          · rcases List.mem_cons.mp hr2 with hrq | hr3
            · rw [hrq]
              exact Nat.lt_of_le_of_lt (Nat.le_of_not_lt h) hmlt
            · exact hpre r (List.mem_cons_of_mem p hr3)

/-- C3 counterexample: two variants with identical 720-pixel height, the
first listed with bandwidth 1000 and the second with bandwidth 5000.  The
stable descending sort keeps equal heights in listing order, so best
returns the first variant (bandwidth 1000), not the maximum-bandwidth
variant, refuting the tie-break part of the claim. -/
theorem select_best_tie_not_bandwidth_cex :
    selectQualityBest
        [⟨codes "low.m3u8", some (1280, 720), 1000⟩,
         ⟨codes "high.m3u8", some (1280, 720), 5000⟩]
      = some (codes "low.m3u8") ∧
    codes "low.m3u8" ≠ codes "high.m3u8" ∧
    (1000 : Nat) < 5000 := by decide

/-- C3 (amended): for every variant index holding at least one variant with
resolution information, selection under best returns a variant of maximum
resolution height; when several variants tie on height, the one listed
first in the master playlist is returned (bandwidth is not consulted). -/
theorem select_best_max_height (variants : List VariantRef)
    (h : extractQualities variants ≠ []) :
    ∃ q pre post,
      selectQualityBest variants = some q.url ∧
      extractQualities variants = pre ++ q :: post ∧
      (∀ r ∈ extractQualities variants, r.height ≤ q.height) ∧
      (∀ r ∈ pre, r.height < q.height) := by
  obtain ⟨m, qs, hqs⟩ := List.exists_cons_of_ne_nil h
  obtain ⟨pre, post, heq, hpre⟩ := firstMaxAux_first qs m
  refine ⟨firstMaxAux m qs, pre, post, ?_, ?_, ?_, hpre⟩
  · have hhead := sortByHeightDesc_head m qs
    simp only [selectQualityBest, hqs]
    cases hsort : sortByHeightDesc (m :: qs) with
    | nil =>
      rw [hsort] at hhead
      exact absurd hhead (by simp)
    | cons a rest =>
      rw [hsort] at hhead
      simp only [List.head?_cons] at hhead
      injection hhead with hh
      simp [hh]
  · rw [hqs]; exact heq
  · intro r hr
    rw [hqs] at hr
    exact firstMaxAux_is_max qs m r hr

/-- Witness for select_best_max_height: the two-variant scenario of the
spec (640 x 360 at 500000 bps, 1920 x 1080 at 3000000 bps) plus one
variant without resolution information, which is skipped. -/
theorem select_best_max_height_witness :
    extractQualities
        [⟨codes "a.m3u8", some (640, 360), 500000⟩,
         ⟨codes "b.m3u8", none, 100⟩,
         ⟨codes "c.m3u8", some (1920, 1080), 3000000⟩] ≠ [] ∧
    (∃ q pre post,
      selectQualityBest
          [⟨codes "a.m3u8", some (640, 360), 500000⟩,
           ⟨codes "b.m3u8", none, 100⟩,
           ⟨codes "c.m3u8", some (1920, 1080), 3000000⟩] = some q.url ∧
      extractQualities
          [⟨codes "a.m3u8", some (640, 360), 500000⟩,
           ⟨codes "b.m3u8", none, 100⟩,
           ⟨codes "c.m3u8", some (1920, 1080), 3000000⟩] = pre ++ q :: post ∧
      (∀ r ∈ extractQualities
          [⟨codes "a.m3u8", some (640, 360), 500000⟩,
           ⟨codes "b.m3u8", none, 100⟩,
           ⟨codes "c.m3u8", some (1920, 1080), 3000000⟩], r.height ≤ q.height) ∧
      (∀ r ∈ pre, r.height < q.height)) :=
  ⟨by decide,
    select_best_max_height
      [⟨codes "a.m3u8", some (640, 360), 500000⟩,
       ⟨codes "b.m3u8", none, 100⟩,
       ⟨codes "c.m3u8", some (1920, 1080), 3000000⟩] (by decide)⟩

/-- C4: the variant re-fetch URL is computed from the url argument alone.
It is unchanged under any value of the final (possibly redirected,
query-bearing) request URL and under any change of the query and fragment
components of the parsed url: only scheme, netloc and path enter.
Moreover every code point of the join base comes from the scheme, the
literal separator, the netloc or the path, so no query or fragment text
can reach the base. -/
theorem variant_base_clean (u u2 : UrlParts) (f f2 sel : List Nat)
    (hs : u2.scheme = u.scheme) (hn : u2.netloc = u.netloc) (hp : u2.path = u.path) :
    variantRefetchUrl u f sel = variantRefetchUrl u2 f2 sel ∧
    (∀ c ∈ cleanedMasterUrl u,
      c ∈ u.scheme ∨ c ∈ codes "://" ∨ c ∈ u.netloc ∨ c ∈ u.path) := by
  constructor
  · simp only [variantRefetchUrl, urljoinCleaned, hs, hn, hp]
  · intro c hc
    simp only [cleanedMasterUrl, List.append_assoc, List.mem_append] at hc
    tauto

/-- Witness for variant_base_clean: the same scheme, host and path, once
with a query and fragment and a redirected final request URL, once
stripped; the relative variant address resolves identically. -/
theorem variant_base_clean_witness :
    (⟨codes "https", codes "example.com", codes "/v/master.m3u8", [], []⟩ : UrlParts).scheme
      = (⟨codes "https", codes "example.com", codes "/v/master.m3u8",
          codes "token=abc", codes "frag"⟩ : UrlParts).scheme ∧
    variantRefetchUrl
        ⟨codes "https", codes "example.com", codes "/v/master.m3u8",
          codes "token=abc", codes "frag"⟩
        (codes "https://cdn.example.com/other/master.m3u8?sig=1")
        (codes "video/720p.m3u8")
      = variantRefetchUrl
          ⟨codes "https", codes "example.com", codes "/v/master.m3u8", [], []⟩
          [] (codes "video/720p.m3u8") :=
  ⟨rfl,
    (variant_base_clean
      ⟨codes "https", codes "example.com", codes "/v/master.m3u8",
        codes "token=abc", codes "frag"⟩
      ⟨codes "https", codes "example.com", codes "/v/master.m3u8", [], []⟩
      (codes "https://cdn.example.com/other/master.m3u8?sig=1") []
      (codes "video/720p.m3u8") rfl rfl rfl).1⟩

/-- C10: whenever a run starts from a master playlist and reaches the
segment fetcher, the base_url handed to _download_segments (line 88) is
the user-supplied url string itself, not the resolved variant URL the
media playlist was re-fetched from: the conclusion holds for every network
oracle and every selected variant address. -/
theorem segment_base_is_user_url (net : List Nat → Option PlaylistDoc) (rawUrl : List Nat)
    (u : UrlParts) (doc : PlaylistDoc) (selected : Option (List Nat))
    (base : List Nat) (segs : List (List Nat))
    (hmaster : doc.variants ≠ [])
    (h : segmentsPlan net rawUrl u doc selected = some (base, segs)) :
    base = rawUrl := by
  simp only [segmentsPlan] at h
  rw [if_neg (by simpa [List.isEmpty_iff] using hmaster)] at h
  split at h
  · simp at h
  · split at h
    · simp at h
    · simp only [Option.some.injEq, Prod.mk.injEq] at h
      exact h.1.symm

/-- Witness for segment_base_is_user_url: a master playlist with one
variant; the media playlist is re-fetched from the resolved variant URL,
yet the segment base is the original master URL. -/
theorem segment_base_is_user_url_witness :
    ((⟨[⟨codes "v.m3u8", some (640, 360), 500⟩], []⟩ : PlaylistDoc).variants ≠ []) ∧
    segmentsPlan (fun _ => some ⟨[], [codes "seg0.ts"]⟩)
        (codes "https://h.example/m/master.m3u8")
        ⟨codes "https", codes "h.example", codes "/m/master.m3u8", [], []⟩
        ⟨[⟨codes "v.m3u8", some (640, 360), 500⟩], []⟩
        (some (codes "v.m3u8"))
      = some (codes "https://h.example/m/master.m3u8", [codes "seg0.ts"]) ∧
    codes "https://h.example/m/master.m3u8" = codes "https://h.example/m/master.m3u8" :=
  ⟨by decide, by decide,
    segment_base_is_user_url (fun _ => some ⟨[], [codes "seg0.ts"]⟩)
      (codes "https://h.example/m/master.m3u8")
      ⟨codes "https", codes "h.example", codes "/m/master.m3u8", [], []⟩
      ⟨[⟨codes "v.m3u8", some (640, 360), 500⟩], []⟩
      (some (codes "v.m3u8"))
      (codes "https://h.example/m/master.m3u8") [codes "seg0.ts"]
      (by decide) (by decide)⟩
